import Mathlib

/-!
Verification of the IntervalMap repository (SegmentMap): an interval-keyed
associative container mapping disjoint half-open ranges to values.

The repository ships `src/segment_map.rs` (the `SegmentMap` wrapper, its
iterators and an exhaustive test suite).  The recursive node engine
(`segment_map_node.rs`, holding `Segment` and `SegmentMapNode` with the
insert / remove / update / span algorithms) is declared and called from
that file but its source is not present; those parts are modelled from the
specification below, with every detail the spec leaves open pinned to the
behaviour asserted by the repository's own tests.

Keys are embedded as `Int` (the tests use small machine integers and never
exercise overflow); values are a type parameter.  The Rust
`Option<SegmentMapNode>` root and boxed optional children are fused into a
single inductive tree with a `leaf` constructor.
-/

namespace SegMap

/-- Modelled from the spec: `Segment<K>` is `{ start: K, end: K }`, an
immutable half-open range `[start, end)`.  `end` is a Lean keyword, so the
field is named `stop`.  The Rust struct enforces no relation between the
two bounds; properness (`start ≤ stop`) appears as a hypothesis where
needed. -/
structure Segment where
  start : Int
  stop : Int
deriving DecidableEq, Repr

/-- A segment is proper when its bounds are ordered, i.e. it denotes the
key set `start ≤ k < stop` (possibly empty, a point marker, when the two
bounds coincide). -/
def Segment.proper (s : Segment) : Prop := s.start ≤ s.stop

instance (s : Segment) : Decidable s.proper := by unfold Segment.proper; infer_instance

/-- Membership of a key in a segment's half-open key set. -/
def Segment.mem (s : Segment) (k : Int) : Prop := s.start ≤ k ∧ k < s.stop

/-- Modelled from the spec: two segments overlap when their key sets
intersect; stated arithmetically. -/
def Segment.overlaps (a b : Segment) : Prop :=
  max a.start b.start < min a.stop b.stop

instance (a b : Segment) : Decidable (a.overlaps b) := by
  unfold Segment.overlaps; infer_instance

theorem Segment.overlaps_iff_exists (a b : Segment) :
    a.overlaps b ↔ ∃ k, a.mem k ∧ b.mem k := by
  constructor
  · intro h
    refine ⟨max a.start b.start, ?_, ?_⟩ <;>
      simp only [Segment.overlaps, Segment.mem] at h ⊢ <;> omega
  · rintro ⟨k, ⟨ha1, ha2⟩, hb1, hb2⟩
    simp only [Segment.overlaps, Segment.mem]
    omega

/-- Modelled from the spec: the strict order in which stored segments are
kept.  `a.before b` holds when every key of `a` precedes every key of `b`
and, for the degenerate cases, a point marker at position `p` is ordered
strictly between a segment ending at `p` and a segment starting at `p`;
two coincident point markers are ordered neither way (the tests treat a
duplicate point-marker insertion as an overlap violation). -/
def Segment.before (a b : Segment) : Prop :=
  a.stop ≤ b.start ∧ (a.start < b.start ∨ a.stop < b.stop)

instance (a b : Segment) : Decidable (a.before b) := by
  unfold Segment.before; infer_instance

theorem Segment.before_trans {a b c : Segment} (ha : a.proper) (hb : b.proper)
    (h1 : a.before b) (h2 : b.before c) : a.before c := by
  simp only [Segment.before, Segment.proper] at *
  omega

/-- Segments ordered either way cannot share a key. -/
theorem Segment.before_not_overlaps {a b : Segment} (h : a.before b) :
    ¬ a.overlaps b := by
  simp only [Segment.before, Segment.overlaps] at *
  omega

/-- For proper segments `before` implies non-decreasing `start`. -/
theorem Segment.before_start_le {a b : Segment} (ha : a.proper)
    (h : a.before b) : a.start ≤ b.start := by
  simp only [Segment.before, Segment.proper] at *
  omega

/-- Modelled from the spec: the binary tree of stored entries.  The Rust
`SegmentMapNode` owns a `Segment`, a value and two optional subtrees; the
optional root of `SegmentMap` and the optional children are fused into one
inductive with an explicit `leaf`. -/
inductive Tree (V : Type) where
  | leaf
  | node (left : Tree V) (segment : Segment) (value : V) (right : Tree V)
deriving DecidableEq

namespace Tree

variable {V : Type}

/-- In-order traversal, the content sequence produced by the `Iter` /
`IntoIter` iterators of `segment_map.rs` (push the left spine, yield the
node, then walk the right subtree). -/
def toList : Tree V → List (Segment × V)
  | leaf => []
  | node l s v r => toList l ++ (s, v) :: toList r

/-- The stored segments, in traversal order (the `segments` view). -/
def segs (t : Tree V) : List Segment := t.toList.map Prod.fst

/-- Modelled from the spec: `join L R` combines two subtrees, everything
in `L` preceding everything in `R`, by recursive right-spine attachment;
in-order content is the concatenation of the two contents. -/
def join : Tree V → Tree V → Tree V
  | leaf, r => r
  | node ll s v lr, r => node ll s v (join lr r)

@[simp] theorem toList_leaf : (leaf : Tree V).toList = [] := rfl

@[simp] theorem toList_node (l : Tree V) (s : Segment) (v : V) (r : Tree V) :
    (node l s v r).toList = l.toList ++ (s, v) :: r.toList := rfl

@[simp] theorem toList_join (a b : Tree V) :
    (join a b).toList = a.toList ++ b.toList := by
  induction a generalizing b with
  | leaf => simp [join]
  | node ll s v lr ih1 ih2 => simp [join, ih2]

/-- Modelled from the spec: strict insertion.  Descend, sending the new
segment left when it is strictly before the node's segment and right when
strictly after (in the point-marker-aware order); any other relation —
overlap, exact duplicate, or a point marker not strictly orderable against
a stored segment — is the overlap violation, surfaced in Rust as a panic
and here as `none`. -/
def insertT (s : Segment) (v : V) : Tree V → Option (Tree V)
  | leaf => some (node leaf s v leaf)
  | node l S w r =>
    if s.before S then (insertT s v l).map (fun l1 => node l1 S w r)
    else if S.before s then (insertT s v r).map (fun r1 => node l S w r1)
    else none

/-- Build a map by inserting the given entries in order into an empty map
(the `Extend` / bulk-load path); `none` as soon as one insertion violates
the overlap contract. -/
def buildM (l : List (Segment × V)) : Option (Tree V) :=
  l.foldlM (fun t p => insertT p.1 p.2 t) leaf

/-- Modelled from the spec: point lookup, binary search guided by the
ordering invariant. -/
def get (k : Int) : Tree V → Option (Segment × V)
  | leaf => none
  | node l S v r =>
    if k < S.start then get k l
    else if S.stop ≤ k then get k r
    else some (S, v)

/-- Modelled from the spec: `span` returns the segment from the start of
the leftmost stored entry to the stop of the rightmost stored entry, or
nothing on an empty tree. -/
def spanT : Tree V → Option Segment
  | leaf => none
  | node l S _ r =>
    some ⟨match spanT l with | some a => a.start | none => S.start,
          match spanT r with | some a => a.stop | none => S.stop⟩

/-- Modelled from the spec: the unified split/transform algorithm behind
`remove`, `update` and `update_entry`, parameterised by the target segment
`T` and the combining function `f`.  A node entirely outside `T` is kept
and the recursion continues on the one side that can meet `T`; a node
meeting `T` is torn into left remainder, middle (offered to `f` with the
prior value) and right remainder, while the portions of `T` sticking out
to the left and right recurse into the children; a portion of `T` reaching
an empty subtree is a gap, offered to `f` with no prior value. -/
def updateE (f : Segment → Option V → Option V) (T : Segment) : Tree V → Tree V
  | leaf =>
    match f T none with
    | some v => node leaf T v leaf
    | none => leaf
  | node l S v r =>
    if T.before S then node (updateE f T l) S v r
    else if S.before T then node l S v (updateE f T r)
    else
      join (if T.start < S.start then updateE f ⟨T.start, S.start⟩ l else l)
        (join (if S.start < T.start then node leaf ⟨S.start, T.start⟩ v leaf else leaf)
          (join (match f ⟨max S.start T.start, min S.stop T.stop⟩ (some v) with
                 | some w => node leaf ⟨max S.start T.start, min S.stop T.stop⟩ w leaf
                 | none => leaf)
            (join (if T.stop < S.stop then node leaf ⟨T.stop, S.stop⟩ v leaf else leaf)
              (if S.stop < T.stop then updateE f ⟨S.stop, T.stop⟩ r else r))))

/-- Modelled from the spec: `remove(T)` deletes the intersection of every
stored entry with `T`, splitting partially-overlapped entries at the
target's boundaries and reinserting their remainders with their original
values; a node fully consumed disappears and its children are joined. -/
def removeT (T : Segment) : Tree V → Tree V
  | leaf => leaf
  | node l S v r =>
    if T.before S then node (removeT T l) S v r
    else if S.before T then node l S v (removeT T r)
    else
      join (if T.start < S.start then removeT ⟨T.start, S.start⟩ l else l)
        (join (if S.start < T.start then node leaf ⟨S.start, T.start⟩ v leaf else leaf)
          (join (if T.stop < S.stop then node leaf ⟨T.stop, S.stop⟩ v leaf else leaf)
            (if S.stop < T.stop then removeT ⟨S.stop, T.stop⟩ r else r)))

/-- `update(T, f)` is the transform with a combining function that ignores
the affected sub-range, exactly as in `SegmentMap::update`. -/
def update (f : Option V → Option V) (T : Segment) (t : Tree V) : Tree V :=
  updateE (fun _ ov => f ov) T t

@[simp] theorem segs_leaf : (leaf : Tree V).segs = [] := rfl

@[simp] theorem segs_node (l : Tree V) (s : Segment) (v : V) (r : Tree V) :
    (node l s v r).segs = l.segs ++ s :: r.segs := by
  simp [segs]

@[simp] theorem segs_join (a b : Tree V) : (join a b).segs = a.segs ++ b.segs := by
  simp [segs]

/-- The binary-search-tree ordering invariant: every segment stored in the
left subtree is strictly before the node's segment, which is strictly
before every segment stored in the right subtree. -/
def Inv : Tree V → Prop
  | leaf => True
  | node l S _ r => Inv l ∧ Inv r ∧ (∀ u ∈ segs l, u.before S) ∧ (∀ u ∈ segs r, S.before u)

/-- A well-formed tree: ordered and storing only proper segments. -/
def Good (t : Tree V) : Prop := Inv t ∧ ∀ u ∈ segs t, u.proper

@[simp] theorem Inv_leaf : (leaf : Tree V).Inv := trivial

theorem Inv_node {l r : Tree V} {S : Segment} {v : V} :
    (node l S v r).Inv ↔
      l.Inv ∧ r.Inv ∧ (∀ u ∈ segs l, u.before S) ∧ ∀ u ∈ segs r, S.before u :=
  Iff.rfl

theorem Inv_join {a b : Tree V} (ha : a.Inv) (hb : b.Inv)
    (hab : ∀ u ∈ segs a, ∀ w ∈ segs b, u.before w) : (join a b).Inv := by
  induction a with
  | leaf => simpa [join] using hb
  | node ll s v lr ih1 ih2 =>
    rw [Inv_node] at ha
    refine ⟨ha.1, ih2 ha.2.1 ?_, ha.2.2.1, ?_⟩
    · intro u hu w hw
      exact hab u (by simp [hu]) w hw
    · intro u hu
      rw [segs_join, List.mem_append] at hu
      rcases hu with hu | hu
      · exact ha.2.2.2 u hu
      · exact hab s (by simp) u hu

end Tree

/-- `Within w u` classifies the segments the split/transform algorithm can
produce from a source range `w`: `u` is proper, lies inside `w`, and is
either non-degenerate, equal to `w`, or a point strictly inside `w`.  (A
degenerate `u` at one of `w`'s endpoints, other than `w` itself, is never
produced.) -/
def Within (w u : Segment) : Prop :=
  u.start ≤ u.stop ∧ w.start ≤ u.start ∧ u.stop ≤ w.stop ∧
    (u.start < u.stop ∨ (u.start = w.start ∧ u.stop = w.stop) ∨
      (w.start < u.start ∧ u.stop < w.stop))

theorem Within.rfl {w : Segment} (hw : w.proper) : Within w w :=
  ⟨hw, le_refl _, le_refl _, Or.inr (Or.inl ⟨Eq.refl _, Eq.refl _⟩)⟩

theorem Within.proper {w u : Segment} (h : Within w u) : u.proper := h.1

theorem Within.trans {a b c : Segment} (h1 : Within a b) (h2 : Within b c) :
    Within a c := by
  simp only [Within] at *
  omega

theorem Within.before_right {w u S : Segment} (hS : S.proper)
    (hw : w.before S) (h : Within w u) : u.before S := by
  simp only [Within, Segment.before, Segment.proper] at *
  omega

theorem Within.before_left {w u S : Segment} (hS : S.proper)
    (hw : S.before w) (h : Within w u) : S.before u := by
  simp only [Within, Segment.before, Segment.proper] at *
  omega

/-- In the branch of the transform where the node's segment is not
strictly ordered against the target, each bound of either segment is
bracketed by the other segment. -/
theorem overlap_facts {T S : Segment} (hT : T.proper) (hS : S.proper)
    (h1 : ¬ T.before S) (h2 : ¬ S.before T) :
    S.start ≤ T.stop ∧ T.start ≤ S.stop := by
  simp only [Segment.before, Segment.proper] at *
  omega

namespace Tree

variable {V : Type}

theorem within_left_cut {T S : Segment} (hT : T.proper) (hS : S.proper)
    (h1 : ¬ T.before S) (h2 : ¬ S.before T) (hc : T.start < S.start) :
    Within T ⟨T.start, S.start⟩ := by
  simp only [Within, Segment.before, Segment.proper] at *
  omega

theorem within_right_cut {T S : Segment} (hT : T.proper) (hS : S.proper)
    (h1 : ¬ T.before S) (h2 : ¬ S.before T) (hc : S.stop < T.stop) :
    Within T ⟨S.stop, T.stop⟩ := by
  simp only [Within, Segment.before, Segment.proper] at *
  omega

theorem within_left_rem {T S : Segment} (hT : T.proper) (hS : S.proper)
    (h1 : ¬ T.before S) (h2 : ¬ S.before T) (hc : S.start < T.start) :
    Within S ⟨S.start, T.start⟩ := by
  simp only [Within, Segment.before, Segment.proper] at *
  omega

theorem within_right_rem {T S : Segment} (hT : T.proper) (hS : S.proper)
    (h1 : ¬ T.before S) (h2 : ¬ S.before T) (hc : T.stop < S.stop) :
    Within S ⟨T.stop, S.stop⟩ := by
  simp only [Within, Segment.before, Segment.proper] at *
  omega

theorem within_mid {T S : Segment} (hT : T.proper) (hS : S.proper)
    (h1 : ¬ T.before S) (h2 : ¬ S.before T) :
    Within S ⟨max S.start T.start, min S.stop T.stop⟩ := by
  simp only [Within, Segment.before, Segment.proper] at *
  omega

/-- Every segment stored after a transform lies `Within` the target or
`Within` one of the previously stored segments. -/
theorem updateE_mem (f : Segment → Option V → Option V) :
    ∀ (t : Tree V) (T : Segment), T.proper → (∀ w ∈ t.segs, w.proper) →
      ∀ u ∈ (t.updateE f T).segs, Within T u ∨ ∃ w ∈ t.segs, Within w u := by
  intro t
  induction t with
  | leaf =>
    intro T hT _ u hu
    left
    cases hf : f T none with
    | none => simp [updateE, hf, segs] at hu
    | some v =>
      simp [updateE, hf] at hu
      simpa [hu] using Within.rfl hT
  | node l S v r ihl ihr =>
    intro T hT hp u hu
    have hSp : S.proper := hp S (by simp)
    have hlp : ∀ w ∈ l.segs, w.proper := fun w hw => hp w (by simp [hw])
    have hrp : ∀ w ∈ r.segs, w.proper := fun w hw => hp w (by simp [hw])
    simp only [updateE] at hu
    by_cases h1 : T.before S
    · rw [if_pos h1] at hu
      simp only [segs_node, List.mem_append, List.mem_cons] at hu
      rcases hu with hu | hu | hu
      · rcases ihl T hT hlp u hu with h | ⟨w, hw, hwu⟩
        · exact Or.inl h
        · exact Or.inr ⟨w, by simp [hw], hwu⟩
      · exact Or.inr ⟨S, by simp, by simpa [hu] using Within.rfl hSp⟩
      · exact Or.inr ⟨u, by simp [hu], Within.rfl (hrp u hu)⟩
    · rw [if_neg h1] at hu
      by_cases h2 : S.before T
      · rw [if_pos h2] at hu
        simp only [segs_node, List.mem_append, List.mem_cons] at hu
        rcases hu with hu | hu | hu
        · exact Or.inr ⟨u, by simp [hu], Within.rfl (hlp u hu)⟩
        · exact Or.inr ⟨S, by simp, by simpa [hu] using Within.rfl hSp⟩
        · rcases ihr T hT hrp u hu with h | ⟨w, hw, hwu⟩
          · exact Or.inl h
          · exact Or.inr ⟨w, by simp [hw], hwu⟩
      · rw [if_neg h2] at hu
        simp only [segs_join, List.mem_append] at hu
        rcases hu with hu | hu | hu | hu | hu
        · -- left sub-target recursion (or untouched left subtree)
          by_cases hc : T.start < S.start
          · rw [if_pos hc] at hu
            rcases ihl ⟨T.start, S.start⟩ (le_of_lt hc) hlp u hu with h | ⟨w, hw, hwu⟩
            · exact Or.inl ((within_left_cut hT hSp h1 h2 hc).trans h)
            · exact Or.inr ⟨w, by simp [hw], hwu⟩
          · rw [if_neg hc] at hu
            exact Or.inr ⟨u, by simp [hu], Within.rfl (hlp u hu)⟩
        · -- left remainder of the node
          by_cases hc : S.start < T.start
          · rw [if_pos hc] at hu
            simp only [segs_node, segs_leaf, List.nil_append, List.mem_cons,
              List.not_mem_nil, or_false] at hu
            exact Or.inr ⟨S, by simp, by rw [hu]; exact within_left_rem hT hSp h1 h2 hc⟩
          · rw [if_neg hc] at hu
            simp at hu
        · -- middle part
          cases hm : f ⟨max S.start T.start, min S.stop T.stop⟩ (some v) with
          | none => rw [hm] at hu; simp at hu
          | some w =>
            rw [hm] at hu
            simp only [segs_node, segs_leaf, List.nil_append, List.mem_cons,
              List.not_mem_nil, or_false] at hu
            exact Or.inr ⟨S, by simp, by rw [hu]; exact within_mid hT hSp h1 h2⟩
        · -- right remainder of the node
          by_cases hc : T.stop < S.stop
          · rw [if_pos hc] at hu
            simp only [segs_node, segs_leaf, List.nil_append, List.mem_cons,
              List.not_mem_nil, or_false] at hu
            exact Or.inr ⟨S, by simp, by rw [hu]; exact within_right_rem hT hSp h1 h2 hc⟩
          · rw [if_neg hc] at hu
            simp at hu
        · -- right sub-target recursion (or untouched right subtree)
          by_cases hc : S.stop < T.stop
          · rw [if_pos hc] at hu
            rcases ihr ⟨S.stop, T.stop⟩ (le_of_lt hc) hrp u hu with h | ⟨w, hw, hwu⟩
            · exact Or.inl ((within_right_cut hT hSp h1 h2 hc).trans h)
            · exact Or.inr ⟨w, by simp [hw], hwu⟩
          · rw [if_neg hc] at hu
            exact Or.inr ⟨u, by simp [hu], Within.rfl (hrp u hu)⟩

/-- Segments taken from inside two ordered source ranges are themselves
ordered. -/
theorem before_of_within_within {w0 w1 u w : Segment} (h : w0.before w1)
    (hu : Within w0 u) (hw : Within w1 w) : u.before w := by
  simp only [Segment.before, Within] at *
  omega

/-- The transform preserves properness of all stored segments. -/
theorem updateE_proper (f : Segment → Option V → Option V)
    (t : Tree V) (T : Segment) (hT : T.proper) (hp : ∀ w ∈ t.segs, w.proper) :
    ∀ u ∈ (t.updateE f T).segs, u.proper := by
  intro u hu
  rcases updateE_mem f t T hT hp u hu with h | ⟨w, _, hwu⟩
  · exact h.proper
  · exact hwu.proper

/-- The transform preserves the binary-search-tree ordering invariant. -/
theorem updateE_Inv (f : Segment → Option V → Option V) :
    ∀ (t : Tree V) (T : Segment), T.proper → (∀ w ∈ t.segs, w.proper) → t.Inv →
      (t.updateE f T).Inv := by
  intro t
  induction t with
  | leaf =>
    intro T hT _ _
    cases hf : f T none <;> simp [updateE, hf, Inv]
  | node l S v r ihl ihr =>
    intro T hT hp hinv
    rw [Inv_node] at hinv
    obtain ⟨hil, hir, hbl, hbr⟩ := hinv
    have hSp : S.proper := hp S (by simp)
    have hlp : ∀ w ∈ l.segs, w.proper := fun w hw => hp w (by simp [hw])
    have hrp : ∀ w ∈ r.segs, w.proper := fun w hw => hp w (by simp [hw])
    have hT2 : T.start ≤ T.stop := hT
    have hS2 : S.start ≤ S.stop := hSp
    simp only [updateE]
    by_cases h1 : T.before S
    · rw [if_pos h1]
      rw [Inv_node]
      refine ⟨ihl T hT hlp hil, hir, ?_, hbr⟩
      intro u hu
      rcases updateE_mem f l T hT hlp u hu with h | ⟨w, hw, hwu⟩
      · exact h.before_right hSp h1
      · exact hwu.before_right hSp (hbl w hw)
    · rw [if_neg h1]
      by_cases h2 : S.before T
      · rw [if_pos h2]
        rw [Inv_node]
        refine ⟨hil, ihr T hT hrp hir, hbl, ?_⟩
        intro u hu
        rcases updateE_mem f r T hT hrp u hu with h | ⟨w, hw, hwu⟩
        · exact h.before_left hSp h2
        · exact hwu.before_left hSp (hbr w hw)
      · rw [if_neg h2]
        have h1a : ¬(T.stop ≤ S.start ∧ (T.start < S.start ∨ T.stop < S.stop)) := h1
        have h2a : ¬(S.stop ≤ T.start ∧ (S.start < T.start ∨ S.stop < T.stop)) := h2
        -- characterisation and invariance of the five pieces
        have hA : ∀ u ∈ (if T.start < S.start then l.updateE f ⟨T.start, S.start⟩ else l).segs,
            (T.start < S.start ∧ Within ⟨T.start, S.start⟩ u) ∨ ∃ w ∈ l.segs, Within w u := by
          by_cases hgl : T.start < S.start
          · rw [if_pos hgl]
            intro u hu
            rcases updateE_mem f l ⟨T.start, S.start⟩ (le_of_lt hgl) hlp u hu with h | h
            · exact Or.inl ⟨hgl, h⟩
            · exact Or.inr h
          · rw [if_neg hgl]
            intro u hu
            exact Or.inr ⟨u, hu, Within.rfl (hlp u hu)⟩
        have hAInv : (if T.start < S.start then l.updateE f ⟨T.start, S.start⟩ else l).Inv := by
          by_cases hgl : T.start < S.start
          · rw [if_pos hgl]; exact ihl ⟨T.start, S.start⟩ (le_of_lt hgl) hlp hil
          · rw [if_neg hgl]; exact hil
        have hE : ∀ u ∈ (if S.stop < T.stop then r.updateE f ⟨S.stop, T.stop⟩ else r).segs,
            (S.stop < T.stop ∧ Within ⟨S.stop, T.stop⟩ u) ∨ ∃ w ∈ r.segs, Within w u := by
          by_cases hgr : S.stop < T.stop
          · rw [if_pos hgr]
            intro u hu
            rcases updateE_mem f r ⟨S.stop, T.stop⟩ (le_of_lt hgr) hrp u hu with h | h
            · exact Or.inl ⟨hgr, h⟩
            · exact Or.inr h
          · rw [if_neg hgr]
            intro u hu
            exact Or.inr ⟨u, hu, Within.rfl (hrp u hu)⟩
        have hEInv : (if S.stop < T.stop then r.updateE f ⟨S.stop, T.stop⟩ else r).Inv := by
          by_cases hgr : S.stop < T.stop
          · rw [if_pos hgr]; exact ihr ⟨S.stop, T.stop⟩ (le_of_lt hgr) hrp hir
          · rw [if_neg hgr]; exact hir
        have hB : ∀ u ∈ (if S.start < T.start then node leaf ⟨S.start, T.start⟩ v leaf
              else leaf).segs, S.start < T.start ∧ u = ⟨S.start, T.start⟩ := by
          by_cases hga : S.start < T.start
          · rw [if_pos hga]
            intro u hu
            simp only [segs_node, segs_leaf, List.nil_append, List.mem_cons,
              List.not_mem_nil, or_false] at hu
            exact ⟨hga, hu⟩
          · rw [if_neg hga]
            intro u hu
            simp at hu
        have hBInv : (if S.start < T.start then node leaf ⟨S.start, T.start⟩ v leaf
            else leaf).Inv := by
          by_cases hga : S.start < T.start
          · rw [if_pos hga]; simp [Inv]
          · rw [if_neg hga]; simp [Inv]
        have hD : ∀ u ∈ (if T.stop < S.stop then node leaf ⟨T.stop, S.stop⟩ v leaf
              else leaf).segs, T.stop < S.stop ∧ u = ⟨T.stop, S.stop⟩ := by
          by_cases hgb : T.stop < S.stop
          · rw [if_pos hgb]
            intro u hu
            simp only [segs_node, segs_leaf, List.nil_append, List.mem_cons,
              List.not_mem_nil, or_false] at hu
            exact ⟨hgb, hu⟩
          · rw [if_neg hgb]
            intro u hu
            simp at hu
        have hDInv : (if T.stop < S.stop then node leaf ⟨T.stop, S.stop⟩ v leaf
            else leaf).Inv := by
          by_cases hgb : T.stop < S.stop
          · rw [if_pos hgb]; simp [Inv]
          · rw [if_neg hgb]; simp [Inv]
        have hC : ∀ u ∈ (match f ⟨max S.start T.start, min S.stop T.stop⟩ (some v) with
              | some w => node leaf ⟨max S.start T.start, min S.stop T.stop⟩ w leaf
              | none => leaf).segs, u = ⟨max S.start T.start, min S.stop T.stop⟩ := by
          rcases hf : f ⟨max S.start T.start, min S.stop T.stop⟩ (some v) with _ | w <;>
            intro u hu
          · simp at hu
          · simp only [segs_node, segs_leaf, List.nil_append, List.mem_cons,
              List.not_mem_nil, or_false] at hu
            exact hu
        have hCInv : (match f ⟨max S.start T.start, min S.stop T.stop⟩ (some v) with
            | some w => node leaf ⟨max S.start T.start, min S.stop T.stop⟩ w leaf
            | none => leaf).Inv := by
          rcases hf : f ⟨max S.start T.start, min S.stop T.stop⟩ (some v) with _ | w <;>
            simp [Inv]
        have hMp : (⟨max S.start T.start, min S.stop T.stop⟩ : Segment).proper := by
          show max S.start T.start ≤ min S.stop T.stop
          omega
        -- ordering facts between the bases of the pieces
        have fLcM : ∀ u w : Segment, T.start < S.start → Within ⟨T.start, S.start⟩ u →
            Within ⟨max S.start T.start, min S.stop T.stop⟩ w → u.before w := by
          intro u w hgl hu hw
          refine before_of_within_within ?_ hu hw
          show S.start ≤ max S.start T.start ∧
            (T.start < max S.start T.start ∨ S.start < min S.stop T.stop)
          omega
        have fLcRr : ∀ u w : Segment, T.start < S.start → T.stop < S.stop →
            Within ⟨T.start, S.start⟩ u → Within ⟨T.stop, S.stop⟩ w → u.before w := by
          intro u w hgl hgb hu hw
          refine before_of_within_within ?_ hu hw
          show S.start ≤ T.stop ∧ (T.start < T.stop ∨ S.start < S.stop)
          omega
        have fLcRc : ∀ u w : Segment, T.start < S.start → S.stop < T.stop →
            Within ⟨T.start, S.start⟩ u → Within ⟨S.stop, T.stop⟩ w → u.before w := by
          intro u w hgl hgr hu hw
          refine before_of_within_within ?_ hu hw
          show S.start ≤ S.stop ∧ (T.start < S.stop ∨ S.start < T.stop)
          omega
        have fLcR : ∀ u w w1 : Segment, T.start < S.start → w1 ∈ r.segs →
            Within ⟨T.start, S.start⟩ u → Within w1 w → u.before w := by
          intro u w w1 hgl hw1 hu hw
          have hb := hbr w1 hw1
          have hb2 : S.stop ≤ w1.start ∧ (S.start < w1.start ∨ S.stop < w1.stop) := hb
          refine before_of_within_within ?_ hu hw
          show S.start ≤ w1.start ∧ (T.start < w1.start ∨ S.start < w1.stop)
          omega
        have fLM : ∀ u w w0 : Segment, w0 ∈ l.segs → Within w0 u →
            Within ⟨max S.start T.start, min S.stop T.stop⟩ w → u.before w := by
          intro u w w0 hw0 hu hw
          have hb2 : w0.stop ≤ S.start ∧ (w0.start < S.start ∨ w0.stop < S.stop) := hbl w0 hw0
          refine before_of_within_within ?_ hu hw
          show w0.stop ≤ max S.start T.start ∧
            (w0.start < max S.start T.start ∨ w0.stop < min S.stop T.stop)
          omega
        have fLLr : ∀ u w w0 : Segment, S.start < T.start → w0 ∈ l.segs → Within w0 u →
            Within ⟨S.start, T.start⟩ w → u.before w := by
          intro u w w0 hga hw0 hu hw
          have hb2 : w0.stop ≤ S.start ∧ (w0.start < S.start ∨ w0.stop < S.stop) := hbl w0 hw0
          refine before_of_within_within ?_ hu hw
          show w0.stop ≤ S.start ∧ (w0.start < S.start ∨ w0.stop < T.start)
          omega
        have fLRr : ∀ u w w0 : Segment, T.stop < S.stop → w0 ∈ l.segs → Within w0 u →
            Within ⟨T.stop, S.stop⟩ w → u.before w := by
          intro u w w0 hgb hw0 hu hw
          have hb2 : w0.stop ≤ S.start ∧ (w0.start < S.start ∨ w0.stop < S.stop) := hbl w0 hw0
          refine before_of_within_within ?_ hu hw
          show w0.stop ≤ T.stop ∧ (w0.start < T.stop ∨ w0.stop < S.stop)
          omega
        have fLRc : ∀ u w w0 : Segment, S.stop < T.stop → w0 ∈ l.segs → Within w0 u →
            Within ⟨S.stop, T.stop⟩ w → u.before w := by
          intro u w w0 hgr hw0 hu hw
          have hb2 : w0.stop ≤ S.start ∧ (w0.start < S.start ∨ w0.stop < S.stop) := hbl w0 hw0
          refine before_of_within_within ?_ hu hw
          show w0.stop ≤ S.stop ∧ (w0.start < S.stop ∨ w0.stop < T.stop)
          omega
        have fLR : ∀ u w w0 w1 : Segment, w0 ∈ l.segs → w1 ∈ r.segs →
            Within w0 u → Within w1 w → u.before w := by
          intro u w w0 w1 hw0 hw1 hu hw
          exact before_of_within_within
            (Segment.before_trans (hlp w0 hw0) hSp (hbl w0 hw0) (hbr w1 hw1)) hu hw
        have fLrM : ∀ u w : Segment, S.start < T.start → Within ⟨S.start, T.start⟩ u →
            Within ⟨max S.start T.start, min S.stop T.stop⟩ w → u.before w := by
          intro u w hga hu hw
          refine before_of_within_within ?_ hu hw
          show T.start ≤ max S.start T.start ∧
            (S.start < max S.start T.start ∨ T.start < min S.stop T.stop)
          omega
        have fLrRr : ∀ u w : Segment, S.start < T.start → T.stop < S.stop →
            Within ⟨S.start, T.start⟩ u → Within ⟨T.stop, S.stop⟩ w → u.before w := by
          intro u w hga hgb hu hw
          refine before_of_within_within ?_ hu hw
          show T.start ≤ T.stop ∧ (S.start < T.stop ∨ T.start < S.stop)
          omega
        have fLrRc : ∀ u w : Segment, S.start < T.start → S.stop < T.stop →
            Within ⟨S.start, T.start⟩ u → Within ⟨S.stop, T.stop⟩ w → u.before w := by
          intro u w hga hgr hu hw
          refine before_of_within_within ?_ hu hw
          show T.start ≤ S.stop ∧ (S.start < S.stop ∨ T.start < T.stop)
          omega
        have fLrR : ∀ u w w1 : Segment, S.start < T.start → w1 ∈ r.segs →
            Within ⟨S.start, T.start⟩ u → Within w1 w → u.before w := by
          intro u w w1 hga hw1 hu hw
          have hb2 : S.stop ≤ w1.start ∧ (S.start < w1.start ∨ S.stop < w1.stop) := hbr w1 hw1
          refine before_of_within_within ?_ hu hw
          show T.start ≤ w1.start ∧ (S.start < w1.start ∨ T.start < w1.stop)
          omega
        have fMRr : ∀ u w : Segment, T.stop < S.stop →
            Within ⟨max S.start T.start, min S.stop T.stop⟩ u →
            Within ⟨T.stop, S.stop⟩ w → u.before w := by
          intro u w hgb hu hw
          refine before_of_within_within ?_ hu hw
          show min S.stop T.stop ≤ T.stop ∧
            (max S.start T.start < T.stop ∨ min S.stop T.stop < S.stop)
          omega
        have fMRc : ∀ u w : Segment, S.stop < T.stop →
            Within ⟨max S.start T.start, min S.stop T.stop⟩ u →
            Within ⟨S.stop, T.stop⟩ w → u.before w := by
          intro u w hgr hu hw
          refine before_of_within_within ?_ hu hw
          show min S.stop T.stop ≤ S.stop ∧
            (max S.start T.start < S.stop ∨ min S.stop T.stop < T.stop)
          omega
        have fMR : ∀ u w w1 : Segment, w1 ∈ r.segs →
            Within ⟨max S.start T.start, min S.stop T.stop⟩ u →
            Within w1 w → u.before w := by
          intro u w w1 hw1 hu hw
          have hb2 : S.stop ≤ w1.start ∧ (S.start < w1.start ∨ S.stop < w1.stop) := hbr w1 hw1
          refine before_of_within_within ?_ hu hw
          show min S.stop T.stop ≤ w1.start ∧
            (max S.start T.start < w1.start ∨ min S.stop T.stop < w1.stop)
          omega
        have fRrRc : ∀ u w : Segment, T.stop < S.stop → S.stop < T.stop →
            Within ⟨T.stop, S.stop⟩ u → Within ⟨S.stop, T.stop⟩ w → u.before w := by
          intro u w hgb hgr _ _
          exact absurd hgr (by omega)
        have fRrR : ∀ u w w1 : Segment, T.stop < S.stop → w1 ∈ r.segs →
            Within ⟨T.stop, S.stop⟩ u → Within w1 w → u.before w := by
          intro u w w1 hgb hw1 hu hw
          have hb2 : S.stop ≤ w1.start ∧ (S.start < w1.start ∨ S.stop < w1.stop) := hbr w1 hw1
          refine before_of_within_within ?_ hu hw
          show S.stop ≤ w1.start ∧ (T.stop < w1.start ∨ S.stop < w1.stop)
          omega
        -- assemble the join of the five pieces
        refine Inv_join hAInv (Inv_join hBInv (Inv_join hCInv (Inv_join hDInv hEInv ?_) ?_) ?_) ?_
        · -- right remainder before right piece
          intro u hu w hw
          obtain ⟨hgb, hueq⟩ := hD u hu
          subst hueq
          rcases hE w hw with ⟨hgr, hww⟩ | ⟨w1, hw1, hww⟩
          · exact fRrRc _ _ hgb hgr (Within.rfl (by show T.stop ≤ S.stop; omega)) hww
          · exact fRrR _ _ w1 hgb hw1 (Within.rfl (by show T.stop ≤ S.stop; omega)) hww
        · -- middle before right remainder and right piece
          intro u hu w hw
          have hueq := hC u hu
          subst hueq
          simp only [segs_join, List.mem_append] at hw
          rcases hw with hw | hw
          · obtain ⟨hgb, hweq⟩ := hD w hw
            subst hweq
            exact fMRr _ _ hgb (Within.rfl hMp) (Within.rfl (by show T.stop ≤ S.stop; omega))
          · rcases hE w hw with ⟨hgr, hww⟩ | ⟨w1, hw1, hww⟩
            · exact fMRc _ _ hgr (Within.rfl hMp) hww
            · exact fMR _ _ w1 hw1 (Within.rfl hMp) hww
        · -- left remainder before middle, right remainder and right piece
          intro u hu w hw
          obtain ⟨hga, hueq⟩ := hB u hu
          subst hueq
          have huw : Within ⟨S.start, T.start⟩ (⟨S.start, T.start⟩ : Segment) :=
            Within.rfl (by show S.start ≤ T.start; omega)
          simp only [segs_join, List.mem_append] at hw
          rcases hw with hw | hw | hw
          · have hweq := hC w hw
            subst hweq
            exact fLrM _ _ hga huw (Within.rfl hMp)
          · obtain ⟨hgb, hweq⟩ := hD w hw
            subst hweq
            exact fLrRr _ _ hga hgb huw (Within.rfl (by show T.stop ≤ S.stop; omega))
          · rcases hE w hw with ⟨hgr, hww⟩ | ⟨w1, hw1, hww⟩
            · exact fLrRc _ _ hga hgr huw hww
            · exact fLrR _ _ w1 hga hw1 huw hww
        · -- left piece before all the rest
          intro u hu w hw
          simp only [segs_join, List.mem_append] at hw
          rcases hA u hu with ⟨hgl, huw⟩ | ⟨w0, hw0, huw⟩
          · rcases hw with hw | hw | hw | hw
            · obtain ⟨hga, hweq⟩ := hB w hw
              exact absurd hga (by omega)
            · have hweq := hC w hw
              subst hweq
              exact fLcM _ _ hgl huw (Within.rfl hMp)
            · obtain ⟨hgb, hweq⟩ := hD w hw
              subst hweq
              exact fLcRr _ _ hgl hgb huw (Within.rfl (by show T.stop ≤ S.stop; omega))
            · rcases hE w hw with ⟨hgr, hww⟩ | ⟨w1, hw1, hww⟩
              · exact fLcRc _ _ hgl hgr huw hww
              · exact fLcR _ _ w1 hgl hw1 huw hww
          · rcases hw with hw | hw | hw | hw
            · obtain ⟨hga, hweq⟩ := hB w hw
              subst hweq
              exact fLLr _ _ w0 hga hw0 huw
                (Within.rfl (by show S.start ≤ T.start; omega))
            · have hweq := hC w hw
              subst hweq
              exact fLM _ _ w0 hw0 huw (Within.rfl hMp)
            · obtain ⟨hgb, hweq⟩ := hD w hw
              subst hweq
              exact fLRr _ _ w0 hgb hw0 huw (Within.rfl (by show T.stop ≤ S.stop; omega))
            · rcases hE w hw with ⟨hgr, hww⟩ | ⟨w1, hw1, hww⟩
              · exact fLRc _ _ w0 hgr hw0 huw hww
              · exact fLR _ _ w0 w1 hw0 hw1 huw hww

/-- The transform preserves well-formedness. -/
theorem updateE_Good (f : Segment → Option V → Option V) {t : Tree V} {T : Segment}
    (hT : T.proper) (hg : t.Good) : (t.updateE f T).Good :=
  ⟨updateE_Inv f t T hT hg.2 hg.1, updateE_proper f t T hT hg.2⟩

@[simp] theorem join_leaf_left (r : Tree V) : join leaf r = r := rfl

/-- Removal is the transform whose combining function never yields a
value: both recursions take the same branches and build the same pieces,
the middle piece of the transform degenerating to an empty subtree. -/
theorem removeT_eq_updateE : ∀ (t : Tree V) (T : Segment),
    t.removeT T = t.updateE (fun _ _ => none) T := by
  intro t
  induction t with
  | leaf => intro T; rfl
  | node l S v r ihl ihr =>
    intro T
    simp only [removeT, updateE]
    by_cases h1 : T.before S
    · rw [if_pos h1, if_pos h1, ihl]
    · rw [if_neg h1, if_neg h1]
      by_cases h2 : S.before T
      · rw [if_pos h2, if_pos h2, ihr]
      · rw [if_neg h2, if_neg h2]
        simp only [ihl, ihr]
        rfl

theorem removeT_Good {t : Tree V} {T : Segment} (hT : T.proper) (hg : t.Good) :
    (t.removeT T).Good := by
  rw [removeT_eq_updateE]
  exact updateE_Good _ hT hg

theorem update_Good {f : Option V → Option V} {t : Tree V} {T : Segment}
    (hT : T.proper) (hg : t.Good) : (update f T t).Good :=
  updateE_Good _ hT hg

theorem mem_segs_of_mem_toList {t : Tree V} {p : Segment × V} (h : p ∈ t.toList) :
    p.1 ∈ t.segs :=
  List.mem_map_of_mem Prod.fst h

/-- A successful insertion adds exactly the new entry to the content. -/
theorem insertT_toList {s : Segment} {v : V} :
    ∀ {t t' : Tree V}, insertT s v t = some t' →
      t'.toList.Perm ((s, v) :: t.toList) := by
  intro t
  induction t with
  | leaf =>
    intro t' h
    simp only [insertT, Option.some.injEq] at h
    subst h
    simp
  | node l S w r ihl ihr =>
    intro t' h
    simp only [insertT] at h
    by_cases h1 : s.before S
    · rw [if_pos h1] at h
      cases hl : insertT s v l with
      | none => rw [hl] at h; simp at h
      | some l1 =>
        rw [hl] at h
        simp only [Option.map_some', Option.some.injEq] at h
        subst h
        simp only [toList_node]
        simpa using List.Perm.append_right ((S, w) :: r.toList) (ihl hl)
    · rw [if_neg h1] at h
      by_cases h2 : S.before s
      · rw [if_pos h2] at h
        cases hr : insertT s v r with
        | none => rw [hr] at h; simp at h
        | some r1 =>
          rw [hr] at h
          simp only [Option.map_some', Option.some.injEq] at h
          subst h
          simp only [toList_node]
          refine List.Perm.trans
            (List.Perm.append_left l.toList (List.Perm.cons (S, w) (ihr hr))) ?_
          refine List.Perm.trans (List.Perm.append_left l.toList (List.Perm.swap _ _ _)) ?_
          exact List.perm_middle
      · rw [if_neg h2] at h
        simp at h

theorem insertT_segs {s : Segment} {v : V} {t t' : Tree V}
    (h : insertT s v t = some t') : t'.segs.Perm (s :: t.segs) := by
  simpa [segs] using (insertT_toList h).map Prod.fst

/-- A successful insertion preserves well-formedness. -/
theorem insertT_Good {s : Segment} {v : V} (hs : s.proper) :
    ∀ {t t' : Tree V}, t.Good → insertT s v t = some t' → t'.Good := by
  intro t
  induction t with
  | leaf =>
    intro t' _ h
    simp only [insertT, Option.some.injEq] at h
    subst h
    refine ⟨by simp [Inv], ?_⟩
    intro u hu
    simp only [segs_node, segs_leaf, List.nil_append, List.mem_cons,
      List.not_mem_nil, or_false] at hu
    subst hu
    exact hs
  | node l S w r ihl ihr =>
    intro t' hg h
    obtain ⟨hinv, hprop⟩ := hg
    rw [Inv_node] at hinv
    obtain ⟨hil, hir, hbl, hbr⟩ := hinv
    have hSp : S.proper := hprop S (by simp)
    have hlp : ∀ u ∈ l.segs, u.proper := fun u hu => hprop u (by simp [hu])
    have hrp : ∀ u ∈ r.segs, u.proper := fun u hu => hprop u (by simp [hu])
    simp only [insertT] at h
    by_cases h1 : s.before S
    · rw [if_pos h1] at h
      cases hl : insertT s v l with
      | none => rw [hl] at h; simp at h
      | some l1 =>
        rw [hl] at h
        simp only [Option.map_some', Option.some.injEq] at h
        subst h
        obtain ⟨hil1, hlp1⟩ := ihl ⟨hil, hlp⟩ hl
        have hmem : ∀ u ∈ l1.segs, u = s ∨ u ∈ l.segs := by
          intro u hu
          have := (insertT_segs hl).mem_iff.mp hu
          simpa using this
        refine ⟨?_, ?_⟩
        · rw [Inv_node]
          refine ⟨hil1, hir, ?_, hbr⟩
          intro u hu
          rcases hmem u hu with h | h
          · subst h; exact h1
          · exact hbl u h
        · intro u hu
          simp only [segs_node, List.mem_append, List.mem_cons] at hu
          rcases hu with hu | hu | hu
          · exact hlp1 u hu
          · subst hu; exact hSp
          · exact hrp u hu
    · rw [if_neg h1] at h
      by_cases h2 : S.before s
      · rw [if_pos h2] at h
        cases hr : insertT s v r with
        | none => rw [hr] at h; simp at h
        | some r1 =>
          rw [hr] at h
          simp only [Option.map_some', Option.some.injEq] at h
          subst h
          obtain ⟨hir1, hrp1⟩ := ihr ⟨hir, hrp⟩ hr
          have hmem : ∀ u ∈ r1.segs, u = s ∨ u ∈ r.segs := by
            intro u hu
            have := (insertT_segs hr).mem_iff.mp hu
            simpa using this
          refine ⟨?_, ?_⟩
          · rw [Inv_node]
            refine ⟨hil, hir1, hbl, ?_⟩
            intro u hu
            rcases hmem u hu with h | h
            · subst h; exact h2
            · exact hbr u h
          · intro u hu
            simp only [segs_node, List.mem_append, List.mem_cons] at hu
            rcases hu with hu | hu | hu
            · exact hlp u hu
            · subst hu; exact hSp
            · exact hrp1 u hu
      · rw [if_neg h2] at h
        simp at h

/-- Insertion fails exactly when some stored segment is not strictly
orderable against the new one. -/
theorem insertT_none_iff {s : Segment} {v : V} (hs : s.proper) :
    ∀ {t : Tree V}, t.Good →
      (insertT s v t = none ↔ ∃ u ∈ t.segs, ¬ s.before u ∧ ¬ u.before s) := by
  intro t
  induction t with
  | leaf =>
    intro _
    simp [insertT]
  | node l S w r ihl ihr =>
    intro hg
    obtain ⟨hinv, hprop⟩ := hg
    rw [Inv_node] at hinv
    obtain ⟨hil, hir, hbl, hbr⟩ := hinv
    have hSp : S.proper := hprop S (by simp)
    have hlp : ∀ u ∈ l.segs, u.proper := fun u hu => hprop u (by simp [hu])
    have hrp : ∀ u ∈ r.segs, u.proper := fun u hu => hprop u (by simp [hu])
    simp only [insertT]
    by_cases h1 : s.before S
    · rw [if_pos h1]
      rw [Option.map_eq_none']
      rw [ihl ⟨hil, hlp⟩]
      constructor
      · rintro ⟨u, hu, hns, hnu⟩
        exact ⟨u, by simp [hu], hns, hnu⟩
      · rintro ⟨u, hu, hns, hnu⟩
        simp only [segs_node, List.mem_append, List.mem_cons] at hu
        rcases hu with hu | hu | hu
        · exact ⟨u, hu, hns, hnu⟩
        · subst hu; exact absurd h1 hns
        · exact absurd (Segment.before_trans hs hSp h1 (hbr u hu)) hns
    · rw [if_neg h1]
      by_cases h2 : S.before s
      · rw [if_pos h2]
        rw [Option.map_eq_none']
        rw [ihr ⟨hir, hrp⟩]
        constructor
        · rintro ⟨u, hu, hns, hnu⟩
          exact ⟨u, by simp [hu], hns, hnu⟩
        · rintro ⟨u, hu, hns, hnu⟩
          simp only [segs_node, List.mem_append, List.mem_cons] at hu
          rcases hu with hu | hu | hu
          · exact absurd (Segment.before_trans (hlp u hu) hSp (hbl u hu) h2) hnu
          · subst hu; exact absurd h2 hnu
          · exact ⟨u, hu, hns, hnu⟩
      · rw [if_neg h2]
        simp only [true_iff]
        exact ⟨S, by simp, h1, h2⟩

/-- The content of a well-formed tree is pairwise ordered. -/
theorem Good_pairwise : ∀ {t : Tree V}, t.Good →
    t.toList.Pairwise (fun p q => p.1.before q.1) := by
  intro t
  induction t with
  | leaf => intro _; simp
  | node l S v r ihl ihr =>
    intro hg
    obtain ⟨hinv, hprop⟩ := hg
    rw [Inv_node] at hinv
    obtain ⟨hil, hir, hbl, hbr⟩ := hinv
    have hSp : S.proper := hprop S (by simp)
    have hlp : ∀ u ∈ l.segs, u.proper := fun u hu => hprop u (by simp [hu])
    have hrp : ∀ u ∈ r.segs, u.proper := fun u hu => hprop u (by simp [hu])
    simp only [toList_node]
    rw [List.pairwise_append]
    refine ⟨ihl ⟨hil, hlp⟩, ?_, ?_⟩
    · rw [List.pairwise_cons]
      exact ⟨fun q hq => hbr q.1 (mem_segs_of_mem_toList hq), ihr ⟨hir, hrp⟩⟩
    · intro p hp q hq
      have hpl : p.1.before S := hbl p.1 (mem_segs_of_mem_toList hp)
      rcases List.mem_cons.mp hq with hq | hq
      · rw [hq]; exact hpl
      · exact Segment.before_trans (hlp p.1 (mem_segs_of_mem_toList hp)) hSp hpl
          (hbr q.1 (mem_segs_of_mem_toList hq))

end Tree

theorem Segment.before_asymm {a b : Segment} (ha : a.proper) (hb : b.proper)
    (h1 : a.before b) (h2 : b.before a) : False := by
  simp only [Segment.before, Segment.proper] at *
  omega

theorem Segment.before_stop_le {a b : Segment} (hb : b.proper)
    (h : a.before b) : a.stop ≤ b.stop := by
  simp only [Segment.before, Segment.proper] at *
  omega

/-- The mutating operations of the `SegmentMap` API (`insert`, `remove`,
`update`, `update_entry`, `clear`). -/
inductive Op (V : Type) where
  | insert (segment : Segment) (value : V)
  | remove (segment : Segment)
  | update (segment : Segment) (f : Option V → Option V)
  | updateEntry (segment : Segment) (f : Segment → Option V → Option V)
  | clear

/-- An operation's segment argument, when it has one, is a proper range. -/
def Op.properInput {V : Type} : Op V → Prop
  | .insert s _ => s.proper
  | .remove s => s.proper
  | .update s _ => s.proper
  | .updateEntry s _ => s.proper
  | .clear => True

namespace Tree

variable {V : Type}

/-- One step of the public mutating API; `none` is the overlap-violation
panic of `insert`. -/
def applyOp (t : Tree V) : Op V → Option (Tree V)
  | .insert s v => t.insertT s v
  | .remove s => some (t.removeT s)
  | .update s f => some (update f s t)
  | .updateEntry s f => some (t.updateE f s)
  | .clear => some leaf

/-- Run a sequence of operations from the empty map produced by `new()`;
`none` when some insertion violates the overlap contract. -/
def runOps (ops : List (Op V)) : Option (Tree V) :=
  ops.foldlM applyOp leaf

theorem Good_leaf : (leaf : Tree V).Good := ⟨trivial, by simp⟩

theorem applyOp_Good {t t' : Tree V} {op : Op V} (hg : t.Good)
    (hp : op.properInput) (h : t.applyOp op = some t') : t'.Good := by
  cases op with
  | insert s v => exact insertT_Good hp hg h
  | remove s =>
    simp only [applyOp, Option.some.injEq] at h
    subst h
    exact removeT_Good hp hg
  | update s f =>
    simp only [applyOp, Option.some.injEq] at h
    subst h
    exact update_Good hp hg
  | updateEntry s f =>
    simp only [applyOp, Option.some.injEq] at h
    subst h
    exact updateE_Good f hp hg
  | clear =>
    simp only [applyOp, Option.some.injEq] at h
    subst h
    exact Good_leaf

theorem runOps_Good {ops : List (Op V)} {t : Tree V}
    (hp : ∀ op ∈ ops, op.properInput) (h : runOps ops = some t) : t.Good := by
  have key : ∀ (l : List (Op V)), (∀ op ∈ l, op.properInput) →
      ∀ t0 : Tree V, t0.Good → l.foldlM applyOp t0 = some t → t.Good := by
    intro l
    induction l with
    | nil =>
      intro _ t0 hg0 h0
      simp only [List.foldlM_nil] at h0
      cases h0
      exact hg0
    | cons a l ih =>
      intro hpl t0 hg0 h0
      rw [List.foldlM_cons] at h0
      cases ha : t0.applyOp a with
      | none => rw [ha] at h0; exact Option.noConfusion h0
      | some t1 =>
        rw [ha] at h0
        exact ih (fun op hop => hpl op (by simp [hop])) t1
          (applyOp_Good hg0 (hpl a (by simp)) ha) h0
  exact key ops hp leaf Good_leaf h

/-- A successful bulk build is well-formed and holds exactly the supplied
entries. -/
theorem buildM_good {l : List (Segment × V)} {t : Tree V}
    (hp : ∀ p ∈ l, p.1.proper) (h : buildM l = some t) :
    t.Good ∧ t.toList.Perm l := by
  have key : ∀ (l : List (Segment × V)), (∀ p ∈ l, p.1.proper) →
      ∀ t0 : Tree V, t0.Good →
        l.foldlM (fun t p => insertT p.1 p.2 t) t0 = some t →
        t.Good ∧ t.toList.Perm (l ++ t0.toList) := by
    intro l
    induction l with
    | nil =>
      intro _ t0 hg0 h0
      simp only [List.foldlM_nil] at h0
      cases h0
      exact ⟨hg0, by simp⟩
    | cons p l ih =>
      intro hpl t0 hg0 h0
      rw [List.foldlM_cons] at h0
      cases hi : insertT p.1 p.2 t0 with
      | none => rw [hi] at h0; exact Option.noConfusion h0
      | some t1 =>
        rw [hi] at h0
        obtain ⟨hg, hper⟩ :=
          ih (fun q hq => hpl q (by simp [hq])) t1
            (insertT_Good (hpl p (by simp)) hg0 hi) h0
        refine ⟨hg, ?_⟩
        refine hper.trans ?_
        refine (List.Perm.append_left l (insertT_toList hi)).trans ?_
        exact List.perm_middle
  have := key l hp leaf Good_leaf h
  simpa using this

/-- Symmetric orderability of two entries under the storage order. -/
def entryOrd (p q : Segment × V) : Prop := p.1.before q.1 ∨ q.1.before p.1

theorem entryOrd_symm {p q : Segment × V} (h : entryOrd p q) : entryOrd q p :=
  Or.symm h

/-- If the bulk build succeeds, the supplied entries were pairwise
orderable. -/
theorem buildM_pairwise {l : List (Segment × V)} {t : Tree V}
    (hp : ∀ p ∈ l, p.1.proper) (h : buildM l = some t) :
    l.Pairwise entryOrd := by
  obtain ⟨hg, hperm⟩ := buildM_good hp h
  have hpw : t.toList.Pairwise entryOrd :=
    (Good_pairwise hg).imp (fun h => Or.inl h)
  exact (hperm.pairwise_iff entryOrd_symm).mp hpw

/-- Pairwise orderable proper entries always build successfully. -/
theorem buildM_isSome {l : List (Segment × V)}
    (hp : ∀ p ∈ l, p.1.proper) (hpw : l.Pairwise entryOrd) :
    (buildM l).isSome := by
  have key : ∀ (l : List (Segment × V)), (∀ p ∈ l, p.1.proper) →
      l.Pairwise entryOrd → ∀ t0 : Tree V, t0.Good →
        (∀ p ∈ l, ∀ u ∈ t0.segs, p.1.before u ∨ u.before p.1) →
        (l.foldlM (fun t p => insertT p.1 p.2 t) t0).isSome := by
    intro l
    induction l with
    | nil => intro _ _ t0 _ _; simp
    | cons p l ih =>
      intro hpl hpw t0 hg0 hord
      rw [List.foldlM_cons]
      cases hi : insertT p.1 p.2 t0 with
      | none =>
        have hps : p.1.proper := hpl p (by simp)
        obtain ⟨u, hu, hns, hnu⟩ := (insertT_none_iff hps hg0).mp hi
        rcases hord p (by simp) u hu with h | h
        · exact absurd h hns
        · exact absurd h hnu
      | some t1 =>
        have hps : p.1.proper := hpl p (by simp)
        have hg1 : t1.Good := insertT_Good hps hg0 hi
        have hsegs := insertT_segs hi
        have harg : ∀ q ∈ l, ∀ u ∈ t1.segs, q.1.before u ∨ u.before q.1 := by
          intro q hq u hu
          have hum : u ∈ p.1 :: t0.segs := hsegs.mem_iff.mp hu
          rcases List.mem_cons.mp hum with h | h
          · subst h
            have := (List.pairwise_cons.mp hpw).1 q hq
            exact this.symm
          · exact hord q (by simp [hq]) u h
        exact ih (fun q hq => hpl q (by simp [hq])) (List.pairwise_cons.mp hpw).2 t1 hg1 harg
  exact key l hp hpw leaf Good_leaf (by simp)

theorem spanT_eq_none_iff {t : Tree V} : t.spanT = none ↔ t = leaf := by
  cases t <;> simp [spanT]

/-- On a well-formed tree, the first component of the span is the minimal
stored start, attained by some entry. -/
theorem spanT_start : ∀ {t : Tree V}, t.Good → ∀ {s : Segment}, t.spanT = some s →
    (∃ p ∈ t.toList, p.1.start = s.start) ∧ ∀ p ∈ t.toList, s.start ≤ p.1.start := by
  intro t
  induction t with
  | leaf => intro _ s h; simp [spanT] at h
  | node l S v r ihl ihr =>
    intro hg s h
    obtain ⟨hinv, hprop⟩ := hg
    rw [Inv_node] at hinv
    obtain ⟨hil, hir, hbl, hbr⟩ := hinv
    have hSp : S.proper := hprop S (by simp)
    have hlp : ∀ u ∈ l.segs, u.proper := fun u hu => hprop u (by simp [hu])
    simp only [spanT, Option.some.injEq] at h
    subst h
    cases hlsp : l.spanT with
    | none =>
      have hleaf : l = leaf := spanT_eq_none_iff.mp hlsp
      subst hleaf
      constructor
      · exact ⟨(S, v), by simp, by simp [spanT]⟩
      · intro p hp
        simp only [toList_node, toList_leaf, List.nil_append, List.mem_cons] at hp
        simp only [spanT]
        rcases hp with hp | hp
        · rw [hp]
        · exact Segment.before_start_le hSp (hbr p.1 (mem_segs_of_mem_toList hp))
    | some sl =>
      obtain ⟨⟨pl, hpl, hpleq⟩, hbd⟩ := ihl ⟨hil, hlp⟩ hlsp
      have hplS : pl.1.start ≤ S.start :=
        Segment.before_start_le (hlp pl.1 (mem_segs_of_mem_toList hpl))
          (hbl pl.1 (mem_segs_of_mem_toList hpl))
      constructor
      · exact ⟨pl, by simp [hpl], hpleq⟩
      · intro p hp
        simp only [toList_node, List.mem_append, List.mem_cons] at hp
        rcases hp with hp | hp | hp
        · exact hbd p hp
        · rw [hp]
          show sl.start ≤ S.start
          omega
        · show sl.start ≤ p.1.start
          have : S.start ≤ p.1.start :=
            Segment.before_start_le hSp (hbr p.1 (mem_segs_of_mem_toList hp))
          omega

/-- On a well-formed tree, the second component of the span is the maximal
stored stop, attained by some entry. -/
theorem spanT_stop : ∀ {t : Tree V}, t.Good → ∀ {s : Segment}, t.spanT = some s →
    (∃ p ∈ t.toList, p.1.stop = s.stop) ∧ ∀ p ∈ t.toList, p.1.stop ≤ s.stop := by
  intro t
  induction t with
  | leaf => intro _ s h; simp [spanT] at h
  | node l S v r ihl ihr =>
    intro hg s h
    obtain ⟨hinv, hprop⟩ := hg
    rw [Inv_node] at hinv
    obtain ⟨hil, hir, hbl, hbr⟩ := hinv
    have hSp : S.proper := hprop S (by simp)
    have hrp : ∀ u ∈ r.segs, u.proper := fun u hu => hprop u (by simp [hu])
    simp only [spanT, Option.some.injEq] at h
    subst h
    cases hrsp : r.spanT with
    | none =>
      have hleaf : r = leaf := spanT_eq_none_iff.mp hrsp
      subst hleaf
      constructor
      · exact ⟨(S, v), by simp, by simp [spanT]⟩
      · intro p hp
        simp only [toList_node, toList_leaf, List.mem_append, List.mem_cons,
          List.not_mem_nil, or_false] at hp
        simp only [spanT]
        rcases hp with hp | hp
        · exact Segment.before_stop_le hSp (hbl p.1 (mem_segs_of_mem_toList hp))
        · rw [hp]
    | some sr =>
      obtain ⟨⟨pr, hpr, hpreq⟩, hbd⟩ := ihr ⟨hir, hrp⟩ hrsp
      have hSpr : S.stop ≤ pr.1.stop :=
        Segment.before_stop_le (hrp pr.1 (mem_segs_of_mem_toList hpr))
          (hbr pr.1 (mem_segs_of_mem_toList hpr))
      constructor
      · exact ⟨pr, by simp [hpr], hpreq⟩
      · intro p hp
        simp only [toList_node, List.mem_append, List.mem_cons] at hp
        rcases hp with hp | hp | hp
        · show p.1.stop ≤ sr.stop
          have : p.1.stop ≤ S.stop :=
            Segment.before_stop_le hSp (hbl p.1 (mem_segs_of_mem_toList hp))
          omega
        · rw [hp]
          show S.stop ≤ sr.stop
          omega
        · exact hbd p hp

/-- Number of stored entries. -/
def sizeT : Tree V → Nat
  | .leaf => 0
  | .node l _ _ r => l.sizeT + r.sizeT + 1

end Tree

/-- The in-order iterator of `segment_map.rs` (`Iter` / `IntoIter`): a
current subtree and a stack of entries whose right subtrees are still
pending. -/
structure Iter (V : Type) where
  current : Tree V
  stack : List (Segment × V × Tree V)

namespace Iter

variable {V : Type}

/-- The left-spine walk of `Iter::next`: push `(segment, value, right)` for
each node visited while descending into the left child. -/
def pushSpine : Tree V → List (Segment × V × Tree V) → List (Segment × V × Tree V)
  | .leaf, st => st
  | .node l s v r, st => pushSpine l ((s, v, r) :: st)

/-- One call of `Iter::next`: walk the left spine of the current subtree,
then pop an entry, yield it, and continue from its right subtree. -/
def next (it : Iter V) : Option ((Segment × V) × Iter V) :=
  match pushSpine it.current it.stack with
  | [] => none
  | (s, v, r) :: rest => some ((s, v), ⟨r, rest⟩)

/-- Entries still to be produced, used as a termination measure. -/
def sizeUpper (it : Iter V) : Nat :=
  it.current.sizeT + (it.stack.map (fun e => e.2.2.sizeT + 1)).sum

theorem pushSpine_sum (t : Tree V) :
    ∀ st, ((pushSpine t st).map (fun e => e.2.2.sizeT + 1)).sum =
      t.sizeT + (st.map (fun e => e.2.2.sizeT + 1)).sum := by
  induction t with
  | leaf => intro st; simp [pushSpine, Tree.sizeT]
  | node l s v r ihl ihr =>
    intro st
    simp only [pushSpine, ihl, List.map_cons, List.sum_cons, Tree.sizeT]
    omega

theorem next_sizeUpper {it : Iter V} {p : Segment × V} {it' : Iter V}
    (h : it.next = some (p, it')) : it'.sizeUpper < it.sizeUpper := by
  unfold next at h
  cases hps : pushSpine it.current it.stack with
  | nil => rw [hps] at h; exact Option.noConfusion h
  | cons e rest =>
    rw [hps] at h
    obtain ⟨s, v, r⟩ := e
    simp only [Option.some.injEq, Prod.mk.injEq] at h
    have hsum := pushSpine_sum it.current it.stack
    rw [hps] at hsum
    simp only [List.map_cons, List.sum_cons] at hsum
    rw [← h.2]
    simp only [sizeUpper]
    omega

/-- The entries an iterator state will still produce, described directly:
the current subtree in order, then each stacked entry followed by its
right subtree. -/
def pending : List (Segment × V × Tree V) → List (Segment × V)
  | [] => []
  | e :: rest => (e.1, e.2.1) :: e.2.2.toList ++ pending rest

theorem pushSpine_pending (t : Tree V) : ∀ st,
    pending (pushSpine t st) = t.toList ++ pending st := by
  induction t with
  | leaf => intro st; simp [pushSpine]
  | node l s v r ihl ihr =>
    intro st
    simp [pushSpine, ihl, pending]

/-- Repeatedly calling `next` until exhaustion, collecting the yielded
entries. -/
def drain (it : Iter V) : List (Segment × V) :=
  match h : it.next with
  | none => []
  | some (p, it') => p :: it'.drain
termination_by it.sizeUpper
decreasing_by exact next_sizeUpper h

theorem drain_spec : ∀ (n : Nat) (it : Iter V), it.sizeUpper ≤ n →
    it.drain = it.current.toList ++ pending it.stack := by
  intro n
  induction n with
  | zero =>
    intro it hm
    rw [drain.eq_def]
    split
    · next hnext =>
      unfold next at hnext
      cases hps : pushSpine it.current it.stack with
      | cons e rest => rw [hps] at hnext; exact Option.noConfusion hnext
      | nil =>
        have hpend := pushSpine_pending it.current it.stack
        rw [hps] at hpend
        simp only [pending] at hpend
        exact hpend
    · next p it' hnext =>
      exact absurd (next_sizeUpper hnext) (by omega)
  | succ n ih =>
    intro it hm
    rw [drain.eq_def]
    split
    · next hnext =>
      unfold next at hnext
      cases hps : pushSpine it.current it.stack with
      | cons e rest => rw [hps] at hnext; exact Option.noConfusion hnext
      | nil =>
        have hpend := pushSpine_pending it.current it.stack
        rw [hps] at hpend
        simp only [pending] at hpend
        exact hpend
    · next p it' hnext =>
      have hlt := next_sizeUpper hnext
      rw [ih it' (by omega)]
      unfold next at hnext
      cases hps : pushSpine it.current it.stack with
      | nil => rw [hps] at hnext; exact Option.noConfusion hnext
      | cons e rest =>
        rw [hps] at hnext
        obtain ⟨s, v, r⟩ := e
        simp only [Option.some.injEq, Prod.mk.injEq] at hnext
        have hpend := pushSpine_pending it.current it.stack
        rw [hps] at hpend
        simp only [pending] at hpend
        rw [← hpend, ← hnext.1, ← hnext.2]
        rfl

/-- Draining the iterator started from a tree (as `SegmentMap::iter` and
`IntoIterator` do, with the root as current subtree and an empty stack)
yields exactly the in-order traversal. -/
theorem drain_toList (t : Tree V) : (Iter.mk t []).drain = t.toList := by
  have := drain_spec (Iter.mk t []).sizeUpper (Iter.mk t []) (le_refl _)
  simpa [pending] using this

end Iter

namespace Tree

variable {V : Type}

/-- Decide the ordering invariant by structural recursion. -/
def decidableInv : (t : Tree V) → Decidable t.Inv
  | leaf => isTrue trivial
  | node l S v r =>
    letI := decidableInv l
    letI := decidableInv r
    decidable_of_iff _ Inv_node.symm

instance (t : Tree V) : Decidable t.Inv := decidableInv t

instance (t : Tree V) : Decidable t.Good := by
  unfold Tree.Good
  infer_instance

/-- Surgery at a stored point marker: when a well-formed tree holds the
entry `([p,p), w)`, a transform targeted at `[p,p)` descends exactly to
that marker — the content splits around it, every other entry is kept in
place, and the marker's slot is replaced by whatever the combining
function yields for it. -/
theorem updateE_at_marker (p : Int) :
    ∀ (t : Tree V), t.Good → ∀ w : V, ((⟨p, p⟩ : Segment), w) ∈ t.toList →
      ∃ l₁ l₂, t.toList = l₁ ++ ((⟨p, p⟩ : Segment), w) :: l₂ ∧
        ∀ f : Segment → Option V → Option V,
          (t.updateE f ⟨p, p⟩).toList =
            l₁ ++ ((match f ⟨p, p⟩ (some w) with
                    | some v => [((⟨p, p⟩ : Segment), v)]
                    | none => []) ++ l₂) := by
  intro t
  induction t with
  | leaf => intro _ w hmem; simp at hmem
  | node l S u r ihl ihr =>
    intro hg w hmem
    obtain ⟨hinv, hprop⟩ := hg
    rw [Inv_node] at hinv
    obtain ⟨hil, hir, hbl, hbr⟩ := hinv
    have hSp : S.proper := hprop S (by simp)
    have hlp : ∀ q ∈ l.segs, q.proper := fun q hq => hprop q (by simp [hq])
    have hrp : ∀ q ∈ r.segs, q.proper := fun q hq => hprop q (by simp [hq])
    simp only [toList_node, List.mem_append, List.mem_cons] at hmem
    rcases hmem with hmem | hmem | hmem
    · -- the marker lies in the left subtree
      have hb : Segment.before ⟨p, p⟩ S := hbl _ (mem_segs_of_mem_toList hmem)
      obtain ⟨l₁, l₂, heq, hres⟩ := ihl ⟨hil, hlp⟩ w hmem
      refine ⟨l₁, l₂ ++ (S, u) :: r.toList, ?_, ?_⟩
      · simp [heq]
      · intro f
        simp only [updateE, if_pos hb, toList_node, hres f]
        simp [List.append_assoc]
    · -- the marker is this node's entry
      rw [Prod.ext_iff] at hmem
      obtain ⟨hS, hu⟩ := hmem
      subst hS
      subst hu
      refine ⟨l.toList, r.toList, by simp, ?_⟩
      intro f
      have h1 : ¬ Segment.before ⟨p, p⟩ ⟨p, p⟩ := by simp [Segment.before]
      rcases hf : f ⟨p, p⟩ (some w) with _ | v <;>
        simp [updateE, h1, max_self, min_self, hf]
    · -- the marker lies in the right subtree
      have hb : Segment.before S ⟨p, p⟩ := hbr _ (mem_segs_of_mem_toList hmem)
      have hpp : (⟨p, p⟩ : Segment).proper := le_refl p
      have hnb : ¬ Segment.before ⟨p, p⟩ S :=
        fun h => Segment.before_asymm hpp hSp h hb
      obtain ⟨l₁, l₂, heq, hres⟩ := ihr ⟨hir, hrp⟩ w hmem
      refine ⟨l.toList ++ (S, u) :: l₁, l₂, ?_, ?_⟩
      · simp [heq]
      · intro f
        simp only [updateE, if_neg hnb, if_pos hb, toList_node, hres f]
        simp [List.append_assoc]

end Tree

instance {V : Type} : (op : Op V) → Decidable op.properInput
  | .insert s _ => inferInstanceAs (Decidable s.proper)
  | .remove s => inferInstanceAs (Decidable s.proper)
  | .update s _ => inferInstanceAs (Decidable s.proper)
  | .updateEntry s _ => inferInstanceAs (Decidable s.proper)
  | .clear => inferInstanceAs (Decidable True)

/-- The six insertion orders of the three entries used by the remove and
update test cases. -/
def perm3 : List (List (Segment × Int)) :=
  [[(⟨0,6⟩,0), (⟨6,12⟩,1), (⟨12,18⟩,2)],
   [(⟨0,6⟩,0), (⟨12,18⟩,2), (⟨6,12⟩,1)],
   [(⟨6,12⟩,1), (⟨0,6⟩,0), (⟨12,18⟩,2)],
   [(⟨6,12⟩,1), (⟨12,18⟩,2), (⟨0,6⟩,0)],
   [(⟨12,18⟩,2), (⟨0,6⟩,0), (⟨6,12⟩,1)],
   [(⟨12,18⟩,2), (⟨6,12⟩,1), (⟨0,6⟩,0)]]

/-- A well-formed tree holding a point marker at 3 between two ordinary
entries. -/
def wmarkTree : Tree Int :=
  .node (.node .leaf ⟨0,3⟩ 0 .leaf) ⟨3,3⟩ 9 (.node .leaf ⟨3,6⟩ 1 .leaf)

/-- An operation sequence exercising every mutating operation. -/
def wops : List (Op Int) :=
  [.insert ⟨10,20⟩ 0, .clear, .insert ⟨0,6⟩ 0, .insert ⟨6,12⟩ 1,
   .update ⟨3,9⟩ (fun _ => some 7), .remove ⟨4,5⟩, .updateEntry ⟨2,2⟩ (fun _ _ => some 9)]

/-- The tree produced by running `wops` from the empty map. -/
def wtree : Tree Int :=
  .node .leaf ⟨0,2⟩ 0 (.node .leaf ⟨2,2⟩ 9 (.node .leaf ⟨2,3⟩ 0 (.node .leaf ⟨3,4⟩ 7
    (.node .leaf ⟨5,6⟩ 7 (.node .leaf ⟨6,9⟩ 7 (.node .leaf ⟨9,12⟩ 1 .leaf))))))

/-- The map `{[0,1) -> 0, [1,1) -> 1}` of `test_insert_multiple_empty`. -/
def cexTree : Tree Int :=
  .node .leaf ⟨0,1⟩ 0 (.node .leaf ⟨1,1⟩ 1 .leaf)

/-- A well-formed tree with gaps, for exercising `span`. -/
def wspanTree : Tree Int :=
  .node (.node .leaf ⟨0,2⟩ 0 .leaf) ⟨4,6⟩ 1 (.node .leaf ⟨7,9⟩ 2 .leaf)

/-- C1: starting from the empty map produced by `new()`, after every
sequence of successful operations (insert, remove, update, update_entry,
clear) with proper segment arguments, the stored segments are pairwise
non-overlapping and in-order iteration (draining the `Iter` state machine)
yields them in ascending order under the storage order, which places a
zero-width point marker at `p` strictly between any segment ending at `p`
and any segment starting at `p`. -/
theorem claim_C1 {V : Type} (ops : List (Op V)) (t : Tree V)
    (hp : ∀ op ∈ ops, op.properInput) (h : Tree.runOps ops = some t) :
    (Iter.mk t []).drain.Pairwise
      (fun p q => p.1.before q.1 ∧ p.1.start ≤ q.1.start ∧ ¬ p.1.overlaps q.1) := by
  rw [Iter.drain_toList]
  have hg := Tree.runOps_Good hp h
  have hpw := Tree.Good_pairwise hg
  refine List.Pairwise.imp_of_mem ?_ hpw
  intro p q hpm _ hb
  exact ⟨hb, Segment.before_start_le (hg.2 p.1 (Tree.mem_segs_of_mem_toList hpm)) hb,
    Segment.before_not_overlaps hb⟩

/-- C1 witness: a concrete run of all five operations. -/
theorem claim_C1_witness :
    Tree.runOps wops = some wtree ∧
      (Iter.mk wtree []).drain.Pairwise
        (fun p q => p.1.before q.1 ∧ p.1.start ≤ q.1.start ∧ ¬ p.1.overlaps q.1) :=
  ⟨by decide, claim_C1 wops wtree (by decide) (by decide)⟩

/-- C2: for every map and every target segment, `remove(T)` produces
exactly the same in-order content as `update(T, |_| None)` on the same
initial map. -/
theorem claim_C2 {V : Type} (t : Tree V) (T : Segment) :
    (t.removeT T).toList = (Tree.update (fun _ => none) T t).toList := by
  rw [Tree.removeT_eq_updateE]
  rfl

/-- C3 counterexample: `insert` fails on the map `{[0,1) -> 0, [1,1) -> 1}`
when given the duplicate point marker `[1,1)`, although the key-set
intersection of `[1,1)` with every stored segment is empty — so failure is
not raised only on overlap. -/
theorem claim_C3_counterexample :
    Tree.buildM [((⟨0,1⟩ : Segment), (0 : Int)), (⟨1,1⟩, 1)] = some cexTree ∧
      cexTree.segs = [⟨0,1⟩, ⟨1,1⟩] ∧
      Tree.insertT ⟨1,1⟩ 2 cexTree = none ∧
      ¬ (⟨1,1⟩ : Segment).overlaps ⟨0,1⟩ ∧
      ¬ (⟨1,1⟩ : Segment).overlaps ⟨1,1⟩ := by
  decide

/-- C3 (amended): on a well-formed map, insertion of a proper segment
raises the overlap-violation failure when, and only when, some stored
segment cannot be strictly ordered against it (it overlaps it, or the two
are a coincident pair of zero-width markers, or a zero-width segment lies
at or inside the stored segment's extent); on failure no new map is
produced (the prior map value is untouched), and on success the resulting
content is exactly the prior content plus the new entry — nothing is
merged, overwritten or dropped. -/
theorem claim_C3 {V : Type} {t : Tree V} (hg : t.Good) {s : Segment}
    (hs : s.proper) (v : V) :
    (Tree.insertT s v t = none ↔ ∃ u ∈ t.segs, ¬ s.before u ∧ ¬ u.before s) ∧
    ∀ t', Tree.insertT s v t = some t' → t'.toList.Perm ((s, v) :: t.toList) :=
  ⟨Tree.insertT_none_iff hs hg, fun _ h => Tree.insertT_toList h⟩

/-- C3 witness: the amended characterisation applied to the map of the
counterexample. -/
theorem claim_C3_witness :
    (Tree.insertT ⟨1,1⟩ (2 : Int) cexTree = none ↔
      ∃ u ∈ cexTree.segs, ¬ (⟨1,1⟩ : Segment).before u ∧ ¬ u.before ⟨1,1⟩) ∧
    ∀ t', Tree.insertT ⟨1,1⟩ 2 cexTree = some t' →
      t'.toList.Perm (((⟨1,1⟩ : Segment), (2 : Int)) :: cexTree.toList) :=
  claim_C3 (by decide) (by decide) 2

/-- C4: on the map `{[0,6) -> 0, [6,12) -> 1, [12,18) -> 2}`, built by
inserting the three entries in any of the six orders, `remove([3,9))`
yields exactly `{[0,3) -> 0, [9,12) -> 1, [12,18) -> 2}`. -/
theorem claim_C4 :
    perm3.map (fun l => (Tree.buildM l).map fun t => (t.removeT ⟨3,9⟩).toList) =
      List.replicate 6 (some [(⟨0,3⟩,0), (⟨9,12⟩,1), (⟨12,18⟩,2)]) := by
  decide

/-- C5: on the same map, built in any of the six orders,
`update([0,18), |_| Some(3))` yields exactly the three distinct entries
`{[0,6) -> 3, [6,12) -> 3, [12,18) -> 3}` — not one coalesced entry. -/
theorem claim_C5 :
    perm3.map (fun l => (Tree.buildM l).map fun t =>
        (Tree.update (fun _ => some 3) ⟨0,18⟩ t).toList) =
      List.replicate 6 (some [(⟨0,6⟩,3), (⟨6,12⟩,3), (⟨12,18⟩,3)]) := by
  decide

/-- C6: on the map `{[0,6) -> 0}`, `update([3,3), |_| Some(3))` yields
exactly `{[0,3) -> 0, [3,3) -> 3, [3,6) -> 0}`: the zero-width target
splits the covering entry and a point marker is inserted between the two
remainders. -/
theorem claim_C6 :
    (Tree.buildM [((⟨0,6⟩ : Segment), (0 : Int))]).map
        (fun t => (Tree.update (fun _ => some 3) ⟨3,3⟩ t).toList) =
      some [(⟨0,3⟩,0), (⟨3,3⟩,3), (⟨3,6⟩,0)] := by
  decide

/-- C7: for any finite collection of proper entries, inserting them into
an empty map in any permutation yields the same outcome: the same in-order
content when the insertions succeed, and failure in both orders
otherwise. -/
theorem claim_C7 {V : Type} (l₁ l₂ : List (Segment × V)) (hperm : l₁.Perm l₂)
    (hp : ∀ p ∈ l₁, p.1.proper) :
    (Tree.buildM l₁).map Tree.toList = (Tree.buildM l₂).map Tree.toList := by
  have hp₂ : ∀ p ∈ l₂, p.1.proper := fun p hm => hp p (hperm.mem_iff.mpr hm)
  cases h₁ : Tree.buildM l₁ with
  | none =>
    cases h₂ : Tree.buildM l₂ with
    | none => rfl
    | some t₂ =>
      have hpw₂ := Tree.buildM_pairwise hp₂ h₂
      have hpw₁ : l₁.Pairwise Tree.entryOrd :=
        (hperm.pairwise_iff (fun {_ _} h => Tree.entryOrd_symm h)).mpr hpw₂
      have hsome := Tree.buildM_isSome hp hpw₁
      rw [h₁] at hsome
      exact absurd hsome (by simp)
  | some t₁ =>
    cases h₂ : Tree.buildM l₂ with
    | none =>
      have hpw₁ := Tree.buildM_pairwise hp h₁
      have hpw₂ : l₂.Pairwise Tree.entryOrd :=
        (hperm.pairwise_iff (fun {_ _} h => Tree.entryOrd_symm h)).mp hpw₁
      have hsome := Tree.buildM_isSome hp₂ hpw₂
      rw [h₂] at hsome
      exact absurd hsome (by simp)
    | some t₂ =>
      obtain ⟨hg₁, hperm₁⟩ := Tree.buildM_good hp h₁
      obtain ⟨hg₂, hperm₂⟩ := Tree.buildM_good hp₂ h₂
      have heq : t₁.toList = t₂.toList := by
        refine List.Perm.eq_of_sorted ?_ (Tree.Good_pairwise hg₁) (Tree.Good_pairwise hg₂)
          (hperm₁.trans (hperm.trans hperm₂.symm))
        intro a b ha hb hab hba
        exact (Segment.before_asymm (hg₁.2 a.1 (Tree.mem_segs_of_mem_toList ha))
          (hg₂.2 b.1 (Tree.mem_segs_of_mem_toList hb)) hab hba).elim
      simp [heq]

/-- C7 witness: two insertion orders of the same two entries. -/
theorem claim_C7_witness :
    (Tree.buildM [((⟨6,12⟩ : Segment), (1 : Int)), (⟨0,6⟩, 0)]).map Tree.toList =
      (Tree.buildM [((⟨0,6⟩ : Segment), (0 : Int)), (⟨6,12⟩, 1)]).map Tree.toList :=
  claim_C7 _ _ (List.Perm.swap _ _ _) (by decide)

/-- C8: applied to an empty map, `update` (and `update_entry`) treat the
whole target as a gap: if the function yields a value on "no prior value"
the result is exactly the single entry for the target, otherwise the map
stays empty. -/
theorem claim_C8 {V : Type} (T : Segment) (f : Option V → Option V)
    (g : Segment → Option V → Option V) (v w : V) :
    (f none = some v → (Tree.update f T Tree.leaf).toList = [(T, v)]) ∧
    (f none = none → Tree.update f T Tree.leaf = Tree.leaf) ∧
    (g T none = some w → (Tree.updateE g T Tree.leaf).toList = [(T, w)]) ∧
    (g T none = none → Tree.updateE g T Tree.leaf = Tree.leaf) := by
  refine ⟨?_, ?_, ?_, ?_⟩ <;> intro h <;>
    simp [Tree.update, Tree.updateE, h]

/-- C8 witness: a gap-filling update and a no-op update on the empty
map. -/
theorem claim_C8_witness :
    (Tree.update (fun _ => some (5 : Int)) ⟨0,2⟩ Tree.leaf).toList = [(⟨0,2⟩, 5)] ∧
    Tree.updateE (fun _ _ => (none : Option Int)) ⟨0,2⟩ Tree.leaf = Tree.leaf :=
  ⟨(claim_C8 ⟨0,2⟩ (fun _ => some 5) (fun _ _ => none) 5 5).1 rfl,
   (claim_C8 ⟨0,2⟩ (fun _ => some 5) (fun _ _ => none) 5 5).2.2.2 rfl⟩

/-- C9: `span()` is `None` exactly on the empty map; on a well-formed
non-empty map it returns the segment from the start of the leftmost entry
(the minimal stored start) to the stop of the rightmost entry (the maximal
stored stop) — every stored segment lies inside it, though it may cover
gaps. -/
theorem claim_C9 {V : Type} (t : Tree V) (hg : t.Good) :
    (t.spanT = none ↔ t = Tree.leaf) ∧
    ∀ s, t.spanT = some s →
      (t.toList.head?.map fun p => p.1.start) = some s.start ∧
      (t.toList.getLast?.map fun p => p.1.stop) = some s.stop ∧
      ∀ p ∈ t.toList, s.start ≤ p.1.start ∧ p.1.stop ≤ s.stop := by
  refine ⟨Tree.spanT_eq_none_iff, ?_⟩
  intro s hs
  obtain ⟨⟨pa, hpa, hpaeq⟩, hmin⟩ := Tree.spanT_start hg hs
  obtain ⟨⟨pb, hpb, hpbeq⟩, hmax⟩ := Tree.spanT_stop hg hs
  have hpw := Tree.Good_pairwise hg
  refine ⟨?_, ?_, fun p hp => ⟨hmin p hp, hmax p hp⟩⟩
  · cases hl : t.toList with
    | nil => exact absurd hpa (by simp [hl])
    | cons p₀ rest =>
      have h₀mem : p₀ ∈ t.toList := by simp [hl]
      have h1 : s.start ≤ p₀.1.start := hmin p₀ h₀mem
      have h2 : p₀.1.start ≤ s.start := by
        rw [← hpaeq]
        rw [hl] at hpa
        rcases List.mem_cons.mp hpa with h | h
        · rw [h]
        · have hrel : p₀.1.before pa.1 := by
            rw [hl] at hpw
            exact (List.pairwise_cons.mp hpw).1 pa h
          exact Segment.before_start_le (hg.2 p₀.1 (Tree.mem_segs_of_mem_toList h₀mem)) hrel
      simp only [List.head?_cons, Option.map_some', Option.some.injEq]
      omega
  · rw [← List.head?_reverse]
    cases hl : t.toList.reverse with
    | nil =>
      have hnil : t.toList = [] := by simpa using congrArg List.reverse hl
      exact absurd hpb (by simp [hnil])
    | cons q₀ qrest =>
      have hq₀mem : q₀ ∈ t.toList := by
        have : q₀ ∈ t.toList.reverse := by simp [hl]
        simpa using this
      have h1 : q₀.1.stop ≤ s.stop := hmax q₀ hq₀mem
      have h2 : s.stop ≤ q₀.1.stop := by
        rw [← hpbeq]
        have hrev : t.toList.reverse.Pairwise (fun a b => b.1.before a.1) :=
          List.pairwise_reverse.mpr hpw
        have hpbrev : pb ∈ q₀ :: qrest := by rw [← hl]; simpa using hpb
        rcases List.mem_cons.mp hpbrev with h | h
        · rw [h]
        · have hrel : pb.1.before q₀.1 := by
            rw [hl] at hrev
            exact (List.pairwise_cons.mp hrev).1 pb h
          exact Segment.before_stop_le (hg.2 q₀.1 (Tree.mem_segs_of_mem_toList hq₀mem)) hrel
      simp only [List.head?_cons, Option.map_some', Option.some.injEq]
      omega

/-- C9 witness: the span of a concrete three-entry map with gaps. -/
theorem claim_C9_witness :
    (wspanTree.toList.head?.map fun p => p.1.start) = some 0 ∧
    (wspanTree.toList.getLast?.map fun p => p.1.stop) = some 9 ∧
    ∀ p ∈ wspanTree.toList, (0 : Int) ≤ p.1.start ∧ p.1.stop ≤ 9 :=
  (claim_C9 wspanTree (by decide)).2 ⟨0, 9⟩ (by decide)

/-- C10: a zero-width target segment `[p,p)` does affect a co-located
stored zero-width point marker: on every well-formed map containing the
entry `([p,p), w)`, `remove([p,p))` deletes exactly that marker and leaves
every other entry unchanged in place, and `update([p,p), |_| Some(v))`
replaces the marker's value with `v` in place. -/
theorem claim_C10 {V : Type} (t : Tree V) (hg : t.Good) (p : Int) (w : V)
    (hmem : ((⟨p, p⟩ : Segment), w) ∈ t.toList) (v : V) :
    ∃ l₁ l₂, t.toList = l₁ ++ ((⟨p, p⟩ : Segment), w) :: l₂ ∧
      (t.removeT ⟨p, p⟩).toList = l₁ ++ l₂ ∧
      (Tree.update (fun _ => some v) ⟨p, p⟩ t).toList =
        l₁ ++ ((⟨p, p⟩ : Segment), v) :: l₂ := by
  obtain ⟨l₁, l₂, heq, hres⟩ := Tree.updateE_at_marker p t hg w hmem
  refine ⟨l₁, l₂, heq, ?_, ?_⟩
  · rw [Tree.removeT_eq_updateE]
    simpa using hres (fun _ _ => none)
  · simpa [Tree.update] using hres (fun _ _ => some v)

/-- C10 witness: the marker map `{[0,3) -> 0, [3,3) -> 9, [3,6) -> 1}`
with target `[3,3)`. -/
theorem claim_C10_witness :
    ∃ l₁ l₂, wmarkTree.toList = l₁ ++ ((⟨3,3⟩ : Segment), (9 : Int)) :: l₂ ∧
      (wmarkTree.removeT ⟨3,3⟩).toList = l₁ ++ l₂ ∧
      (Tree.update (fun _ => some 5) ⟨3,3⟩ wmarkTree).toList =
        l₁ ++ ((⟨3,3⟩ : Segment), 5) :: l₂ :=
  claim_C10 wmarkTree (by decide) 3 9 (by decide) 5

end SegMap

